import Mathlib

/-!
Verification of the counter mode state machine of the `darc` crate:
dynamically-atomic reference-counting pointers (`Rc<T>` / `Arc<T>` sharing one
allocation whose count is either a non-atomic `Cell<usize>` or an
`AtomicUsize`).

The embedding follows `src/lib.rs`.  `usize` arithmetic is modelled on `Nat`
with explicit reduction modulo `2 ^ 64` wherever the Rust code can wrap
(the crate targets a 64-bit machine word; `isize::MAX as usize = 2 ^ 63 - 1`).
Process abort (the overflow guard in `Inner::increment`) is modelled by
`Option`: `none` is the aborted computation.

The heap of allocation blocks is modelled as a list of optional blocks indexed
by allocation order; a freed block becomes `none` at its index, so freeing and
"no new allocation" are observable.
-/

namespace Darc

/-- `usize` values wrap modulo `2 ^ 64` on the 64-bit target. -/
def USIZE_MOD : Nat := 2 ^ 64

/-- A soft limit on the amount of references: `isize::MAX as usize`
(`src/lib.rs:25`). -/
def MAX_REFCOUNT : Nat := 2 ^ 63 - 1

/-- `enum Count { Single(Cell<usize>), Multi(AtomicUsize) }` (`src/lib.rs:27`). -/
inductive Count where
  | Single : Nat → Count
  | Multi : Nat → Count
deriving DecidableEq

/-- The integer held by the counter, in whichever mode. -/
def Count.val : Count → Nat
  | .Single c => c
  | .Multi c => c

/-- True when the counter is in the non-atomic `Single` mode. -/
def Count.isSingle : Count → Bool
  | .Single _ => true
  | .Multi _ => false

/-- `Inner::make_multi_threaded` (`src/lib.rs:47-54`): if already `Multi`,
return; otherwise overwrite the storage with `Multi` of the same count. -/
def Count.make_multi_threaded : Count → Count
  | .Single c => .Multi c
  | .Multi c => .Multi c

/-- `Inner::make_single_threaded` (`src/lib.rs:56-68`): `Single` returns `true`
at once; `Multi` loads the count and, exactly when it is `1`, rewrites the
storage as `Single` of that count and returns `true`, else returns `false`
leaving the storage untouched.  The pair is (returned bool, resulting state). -/
def Count.make_single_threaded : Count → Bool × Count
  | .Single c => (true, .Single c)
  | .Multi c => if c = 1 then (true, .Single c) else (false, .Multi c)

/-- `Inner::increment` (`src/lib.rs:70-85`): add `1` to the stored count
(wrapping, as `usize` addition does in release builds and as `fetch_add`
always does), then abort the process when the new count exceeds
`MAX_REFCOUNT`.  `none` models the abort; otherwise the result is
(returned new count, resulting state), the mode unchanged. -/
def Count.increment : Count → Option (Nat × Count)
  | .Single c =>
    let count := (c + 1) % USIZE_MOD
    if count > MAX_REFCOUNT then none else some (count, .Single count)
  | .Multi c =>
    let count := (c + 1) % USIZE_MOD
    if count > MAX_REFCOUNT then none else some (count, .Multi count)

/-- `Inner::decrement` (`src/lib.rs:87-104`): subtract `1` from the stored
count (wrapping `usize` subtraction), in either mode; the result is
(returned new count, resulting state). -/
def Count.decrement : Count → Nat × Count
  | .Single c =>
    let count := (c + (USIZE_MOD - 1)) % USIZE_MOD
    (count, .Single count)
  | .Multi c =>
    let count := (c + (USIZE_MOD - 1)) % USIZE_MOD
    (count, .Multi count)

/-- The counter states of a live allocation block: created as `Single 1` by
`Inner::new`, then transformed by successful increments, by decrements that
leave at least one owner (a decrement to `0` destroys the block and with it
the counter), and by the two mode transitions. -/
inductive Count.Reachable : Count → Prop where
  | init : Reachable (.Single 1)
  | inc {s : Count} {n : Nat} {t : Count} :
      Reachable s → s.increment = some (n, t) → Reachable t
  | dec {s : Count} :
      Reachable s → 1 < s.val → Reachable s.decrement.2
  | promote {s : Count} :
      Reachable s → Reachable s.make_multi_threaded
  | demote {s : Count} :
      Reachable s → Reachable s.make_single_threaded.2

/-- `struct Inner<T> { count: UnsafeCell<Count>, data: T }` (`src/lib.rs:32-35`):
one allocation block owning the counter and the wrapped value. -/
structure Inner (α : Type) where
  count : Count
  data : α
deriving DecidableEq

/-- `Inner::new` (`src/lib.rs:38-43`): a fresh block in `Single` mode with
count `1`. -/
def Inner.new {α : Type} (data : α) : Inner α :=
  { count := Count.Single 1, data := data }

/-- `Rc<T>` (`src/lib.rs:111-114`): a pointer to an allocation block, modelled
as the block's index in allocation order. -/
structure Rc where
  ptr : Nat
deriving DecidableEq

/-- `Arc<T>` (`src/lib.rs:262-264`): a wrapper holding exactly one `Rc`. -/
structure Arc where
  inner : Rc
deriving DecidableEq

/-- The heap of allocation blocks in allocation order; a freed block is `none`
at its index, so freeing is observable and an index is never reused. -/
structure Heap (α : Type) where
  blocks : List (Option (Inner α))
deriving DecidableEq

/-- Lookup at an index, `none` when out of range. -/
def listGet {β : Type} : List β → Nat → Option β
  | [], _ => none
  | b :: _, 0 => some b
  | _ :: l, n + 1 => listGet l n

/-- Update at an index (identity when out of range). -/
def listSet {β : Type} : List β → Nat → β → List β
  | [], _, _ => []
  | _ :: l, 0, b => b :: l
  | a :: l, n + 1, b => a :: listSet l n b

/-- `Rc::inner` / following the pointer: the block a handle refers to (`none`
models a dangling or freed pointer, which the source rules out). -/
def Heap.get {α : Type} (h : Heap α) (p : Rc) : Option (Inner α) :=
  match listGet h.blocks p.ptr with
  | some b => b
  | none => none

/-- In-place update of the counter storage behind one block. -/
def Heap.set {α : Type} (h : Heap α) (i : Nat) (b : Option (Inner α)) :
    Heap α :=
  ⟨listSet h.blocks i b⟩

/-- `Rc::new` (`src/lib.rs:128-134`): box a fresh `Inner` (`Box::into_raw`)
and keep the pointer. -/
def Rc.new {α : Type} (h : Heap α) (v : α) : Heap α × Rc :=
  (⟨h.blocks ++ [some (Inner.new v)]⟩, ⟨h.blocks.length⟩)

/-- `impl Clone for Rc` (`src/lib.rs:148-153`): `self.inner().increment()`,
then a copy of the same pointer.  `none` models the aborting increment (and a
dangling pointer, which the source rules out). -/
def Rc.clone {α : Type} (h : Heap α) (p : Rc) : Option (Heap α × Rc) :=
  match h.get p with
  | none => none
  | some b =>
    match b.count.increment with
    | none => none
    | some r => some (h.set p.ptr (some ⟨r.2, b.data⟩), ⟨p.ptr⟩)

/-- `impl Drop for Rc` (`src/lib.rs:155-161`): decrement the counter and free
the whole block exactly when the returned count is `0`. -/
def Rc.drop {α : Type} (h : Heap α) (p : Rc) : Heap α :=
  match h.get p with
  | none => h
  | some b =>
    if b.count.decrement.1 = 0 then h.set p.ptr none
    else h.set p.ptr (some ⟨b.count.decrement.2, b.data⟩)

/-- `impl Deref for Rc` (`src/lib.rs:163-169`): a view of the wrapped value. -/
def Rc.deref {α : Type} (h : Heap α) (p : Rc) : Option α :=
  match h.get p with
  | none => none
  | some b => some b.data

/-- `Rc::unshare` (`src/lib.rs:143-145`): delegates to
`Inner::make_single_threaded` on the referenced block. -/
def Rc.unshare {α : Type} (h : Heap α) (p : Rc) : Bool × Heap α :=
  match h.get p with
  | none => (false, h)
  | some b =>
    ((b.count.make_single_threaded).1,
      h.set p.ptr (some ⟨(b.count.make_single_threaded).2, b.data⟩))

/-- `Rc::from_arc` (`src/lib.rs:137-139`): unwrap the `Arc`, touching neither
the heap nor the counter. -/
def Rc.from_arc (a : Arc) : Rc := a.inner

/-- `Arc::from_rc` (`src/lib.rs:278-281`): `make_multi_threaded` on the
referenced block, then wrap the same pointer. -/
def Arc.from_rc {α : Type} (h : Heap α) (p : Rc) : Heap α × Arc :=
  match h.get p with
  | none => (h, ⟨p⟩)
  | some b =>
    (h.set p.ptr (some ⟨b.count.make_multi_threaded, b.data⟩), ⟨p⟩)

/-- `Arc::new` (`src/lib.rs:272-274`): `Arc::from_rc(Rc::new(data))`. -/
def Arc.new {α : Type} (h : Heap α) (v : α) : Heap α × Arc :=
  Arc.from_rc (Rc.new h v).1 (Rc.new h v).2

/-- `k` successive drops of handles referencing the block at `p`. -/
def dropN {α : Type} (h : Heap α) (p : Rc) : Nat → Heap α
  | 0 => h
  | k + 1 => dropN (Rc.drop h p) p k

/-- The memory orderings of `std::sync::atomic::Ordering` used by the crate. -/
inductive MemOrder where
  | relaxed
  | release
  | acquire
  | seqcst
deriving DecidableEq

/-- One access to the shared counter storage, classified by how it is
synchronized. -/
inductive MemEvent where
  | plainRead : MemEvent
  | plainWrite : MemEvent
  | atomicLoad : MemOrder → MemEvent
  | atomicRMW : MemOrder → MemEvent
  | atomicCAS : MemOrder → MemEvent
  | fence : MemOrder → MemEvent
deriving DecidableEq

/-- The sequence of accesses to the counter storage performed by
`Inner::make_single_threaded` (`src/lib.rs:56-68`) from a given state: an
unsynchronized read of the tagged storage (the `match` through
`self.count.get()`), then — in `Multi` mode — `atom.load(Ordering::SeqCst)`,
then, exactly when the loaded count is `1`, the unsynchronized write
`*self.count.get() = Count::Single(..)`. -/
def make_single_threaded_events : Count → List MemEvent
  | Count.Single _ => [MemEvent.plainRead]
  | Count.Multi c =>
    [MemEvent.plainRead, MemEvent.atomicLoad MemOrder.seqcst]
      ++ (if c = 1 then [MemEvent.plainWrite] else [])

/-- Modelled from the spec: the demotion check-and-flip is "a single
synchronized compare-and-set-style operation ..., not a load followed by an
unsynchronized write": the whole access sequence is one atomic
compare-and-set event. -/
def isSingleCASCheckAndFlip : List MemEvent → Bool
  | [MemEvent.atomicCAS _] => true
  | _ => false

theorem USIZE_MOD_eq : USIZE_MOD = 18446744073709551616 := by
  norm_num [USIZE_MOD]

theorem MAX_REFCOUNT_eq : MAX_REFCOUNT = 9223372036854775807 := by
  norm_num [MAX_REFCOUNT]

theorem Count.increment_single_eq (c : Nat) :
    (Count.Single c).increment =
      if (c + 1) % USIZE_MOD > MAX_REFCOUNT then none
      else some ((c + 1) % USIZE_MOD, Count.Single ((c + 1) % USIZE_MOD)) := rfl

theorem Count.increment_multi_eq (c : Nat) :
    (Count.Multi c).increment =
      if (c + 1) % USIZE_MOD > MAX_REFCOUNT then none
      else some ((c + 1) % USIZE_MOD, Count.Multi ((c + 1) % USIZE_MOD)) := rfl

theorem Count.decrement_single_eq (c : Nat) :
    (Count.Single c).decrement =
      ((c + (USIZE_MOD - 1)) % USIZE_MOD,
        Count.Single ((c + (USIZE_MOD - 1)) % USIZE_MOD)) := rfl

theorem Count.decrement_multi_eq (c : Nat) :
    (Count.Multi c).decrement =
      ((c + (USIZE_MOD - 1)) % USIZE_MOD,
        Count.Multi ((c + (USIZE_MOD - 1)) % USIZE_MOD)) := rfl

theorem Count.make_single_threaded_multi_eq (c : Nat) :
    (Count.Multi c).make_single_threaded =
      if c = 1 then (true, Count.Single c) else (false, Count.Multi c) := rfl

theorem usize_sub_one {v : Nat} (h1 : 1 ≤ v) (h2 : v < USIZE_MOD) :
    (v + (USIZE_MOD - 1)) % USIZE_MOD = v - 1 := by
  have hM : USIZE_MOD = 18446744073709551616 := USIZE_MOD_eq
  have hv : v + (USIZE_MOD - 1) = (v - 1) + 1 * USIZE_MOD := by omega
  rw [hv, Nat.add_mul_mod_self_right, Nat.mod_eq_of_lt (by omega)]

theorem Count.decrement_val (v : Nat) (h1 : 1 ≤ v) (h2 : v < USIZE_MOD) :
    ∀ s : Count, s.val = v →
      s.decrement.1 = v - 1 ∧ s.decrement.2.val = v - 1 ∧
        s.decrement.2.isSingle = s.isSingle := by
  intro s hs
  cases s with
  | Single c =>
    have hc : c = v := hs
    subst hc
    rw [Count.decrement_single_eq, usize_sub_one h1 h2]
    exact ⟨rfl, rfl, rfl⟩
  | Multi c =>
    have hc : c = v := hs
    subst hc
    rw [Count.decrement_multi_eq, usize_sub_one h1 h2]
    exact ⟨rfl, rfl, rfl⟩

theorem Count.increment_of_no_wrap {c : Nat} (h : c + 1 < USIZE_MOD) :
    (MAX_REFCOUNT < c + 1 →
      (Count.Single c).increment = none ∧ (Count.Multi c).increment = none) ∧
    (c + 1 ≤ MAX_REFCOUNT →
      (Count.Single c).increment = some (c + 1, .Single (c + 1)) ∧
      (Count.Multi c).increment = some (c + 1, .Multi (c + 1))) := by
  have hmod : (c + 1) % USIZE_MOD = c + 1 := Nat.mod_eq_of_lt h
  constructor
  · intro hgt
    constructor
    · rw [Count.increment_single_eq, hmod, if_pos hgt]
    · rw [Count.increment_multi_eq, hmod, if_pos hgt]
  · intro hle
    have hngt : ¬ (c + 1) > MAX_REFCOUNT := by omega
    constructor
    · rw [Count.increment_single_eq, hmod, if_neg hngt]
    · rw [Count.increment_multi_eq, hmod, if_neg hngt]

theorem Count.increment_val_lt {s : Count} (hn : s.val < MAX_REFCOUNT) :
    ∃ t : Count, s.increment = some (s.val + 1, t)
      ∧ t.val = s.val + 1 ∧ t.isSingle = s.isSingle := by
  have hM := USIZE_MOD_eq
  have hR := MAX_REFCOUNT_eq
  cases s with
  | Single c =>
    have hn' : c < MAX_REFCOUNT := hn
    have hlt : c + 1 < USIZE_MOD := by omega
    exact ⟨Count.Single (c + 1),
      ((Count.increment_of_no_wrap hlt).2 (by omega)).1, rfl, rfl⟩
  | Multi c =>
    have hn' : c < MAX_REFCOUNT := hn
    have hlt : c + 1 < USIZE_MOD := by omega
    exact ⟨Count.Multi (c + 1),
      ((Count.increment_of_no_wrap hlt).2 (by omega)).2, rfl, rfl⟩

theorem Count.increment_val_max {s : Count} (hn : s.val = MAX_REFCOUNT) :
    s.increment = none := by
  have hM := USIZE_MOD_eq
  have hR := MAX_REFCOUNT_eq
  cases s with
  | Single c =>
    have hc : c = MAX_REFCOUNT := hn
    subst hc
    exact ((Count.increment_of_no_wrap (by omega)).1 (by omega)).1
  | Multi c =>
    have hc : c = MAX_REFCOUNT := hn
    subst hc
    exact ((Count.increment_of_no_wrap (by omega)).1 (by omega)).2

theorem Count.make_multi_threaded_val (s : Count) :
    s.make_multi_threaded = Count.Multi s.val := by
  cases s with
  | Single c => rfl
  | Multi c => rfl

/-- Every reachable counter state holds a count between `1` and the soft
ceiling `MAX_REFCOUNT`: the overflow abort prevents any live block from
exceeding the ceiling, and the block is destroyed before its count reaches
`0`. -/
theorem Count.Reachable.bounds {s : Count} (h : Count.Reachable s) :
    1 ≤ s.val ∧ s.val ≤ MAX_REFCOUNT := by
  induction h with
  | init =>
    refine ⟨le_refl 1, ?_⟩
    show (1 : Nat) ≤ MAX_REFCOUNT
    rw [MAX_REFCOUNT_eq]
    omega
  | inc hr hinc ih =>
    rename_i s n t
    have hM := USIZE_MOD_eq
    have hR := MAX_REFCOUNT_eq
    cases s with
    | Single c =>
      have ih' : 1 ≤ c ∧ c ≤ MAX_REFCOUNT := ih
      have hlt : c + 1 < USIZE_MOD := by omega
      by_cases hc : c + 1 > MAX_REFCOUNT
      · rw [((Count.increment_of_no_wrap hlt).1 hc).1] at hinc
        exact Option.noConfusion hinc
      · rw [((Count.increment_of_no_wrap hlt).2 (by omega)).1] at hinc
        injection hinc with hpair
        injection hpair with hn ht
        subst ht
        refine ⟨?_, ?_⟩
        · show 1 ≤ c + 1
          omega
        · show c + 1 ≤ MAX_REFCOUNT
          omega
    | Multi c =>
      have ih' : 1 ≤ c ∧ c ≤ MAX_REFCOUNT := ih
      have hlt : c + 1 < USIZE_MOD := by omega
      by_cases hc : c + 1 > MAX_REFCOUNT
      · rw [((Count.increment_of_no_wrap hlt).1 hc).2] at hinc
        exact Option.noConfusion hinc
      · rw [((Count.increment_of_no_wrap hlt).2 (by omega)).2] at hinc
        injection hinc with hpair
        injection hpair with hn ht
        subst ht
        refine ⟨?_, ?_⟩
        · show 1 ≤ c + 1
          omega
        · show c + 1 ≤ MAX_REFCOUNT
          omega
  | dec hr hgt ih =>
    rename_i s
    have hv : s.val < USIZE_MOD := by
      have hM := USIZE_MOD_eq
      have hR := MAX_REFCOUNT_eq
      omega
    have hd := (Count.decrement_val s.val (by omega) hv s rfl).2.1
    omega
  | promote hr ih =>
    rename_i s
    cases s with
    | Single c => exact ih
    | Multi c => exact ih
  | demote hr ih =>
    rename_i s
    cases s with
    | Single c => exact ih
    | Multi c =>
      by_cases hc : c = 1
      · rw [Count.make_single_threaded_multi_eq, if_pos hc]
        exact ih
      · rw [Count.make_single_threaded_multi_eq, if_neg hc]
        exact ih

/-- Every `Single` count between `1` and the ceiling is reachable, by
repeatedly cloning the freshly constructed handle. -/
theorem Count.reachable_single {c : Nat} (h1 : 1 ≤ c) (h2 : c ≤ MAX_REFCOUNT) :
    Count.Reachable (Count.Single c) := by
  induction c with
  | zero => omega
  | succ n ih =>
    by_cases hn : n = 0
    · subst hn
      exact Count.Reachable.init
    · have hr : Count.Reachable (Count.Single n) := ih (by omega) (by omega)
      have hlt : n + 1 < USIZE_MOD := by
        have hM := USIZE_MOD_eq
        have hR := MAX_REFCOUNT_eq
        omega
      exact Count.Reachable.inc hr ((Count.increment_of_no_wrap hlt).2 h2).1

theorem listGet_set_self {β : Type} (l : List β) (i : Nat) (b : β)
    (h : i < l.length) : listGet (listSet l i b) i = some b := by
  induction l generalizing i with
  | nil => exact absurd h (Nat.not_lt_zero i)
  | cons a l ih =>
    cases i with
    | zero => rfl
    | succ n => exact ih n (Nat.lt_of_succ_lt_succ h)

theorem listGet_set_ne {β : Type} (l : List β) (i j : Nat) (b : β)
    (h : i ≠ j) : listGet (listSet l i b) j = listGet l j := by
  induction l generalizing i j with
  | nil => rfl
  | cons a l ih =>
    cases i with
    | zero =>
      cases j with
      | zero => exact absurd rfl h
      | succ m => rfl
    | succ n =>
      cases j with
      | zero => rfl
      | succ m => exact ih n m (fun he => h (congrArg Nat.succ he))

theorem length_listSet {β : Type} (l : List β) (i : Nat) (b : β) :
    (listSet l i b).length = l.length := by
  induction l generalizing i with
  | nil => rfl
  | cons a l ih =>
    cases i with
    | zero => rfl
    | succ n =>
      show (listSet l n b).length + 1 = l.length + 1
      rw [ih]

theorem listGet_append_length {β : Type} (l : List β) (b : β) :
    listGet (l ++ [b]) l.length = some b := by
  induction l with
  | nil => rfl
  | cons a l ih => exact ih

theorem listGet_append_lt {β : Type} (l : List β) (b : β) (j : Nat)
    (h : j < l.length) : listGet (l ++ [b]) j = listGet l j := by
  induction l generalizing j with
  | nil => exact absurd h (Nat.not_lt_zero j)
  | cons a l ih =>
    cases j with
    | zero => rfl
    | succ n => exact ih n (Nat.lt_of_succ_lt_succ h)

theorem listGet_lt_length {β : Type} (l : List β) (i : Nat) (b : β)
    (h : listGet l i = some b) : i < l.length := by
  induction l generalizing i with
  | nil => exact Option.noConfusion h
  | cons a l ih =>
    cases i with
    | zero => exact Nat.succ_pos _
    | succ n => exact Nat.succ_lt_succ (ih n h)

theorem Heap.get_set_self {α : Type} (h : Heap α) (p : Rc)
    (b : Option (Inner α)) (hlt : p.ptr < h.blocks.length) :
    (h.set p.ptr b).get p = b := by
  unfold Heap.get Heap.set
  rw [listGet_set_self _ _ _ hlt]

theorem Heap.get_some_lt {α : Type} (h : Heap α) (p : Rc) (b : Inner α)
    (hb : h.get p = some b) : p.ptr < h.blocks.length := by
  unfold Heap.get at hb
  cases hg : listGet h.blocks p.ptr with
  | none => rw [hg] at hb; exact Option.noConfusion hb
  | some o => exact listGet_lt_length _ _ _ hg

theorem Heap.get_eq_some {α : Type} {h : Heap α} {p : Rc} {b : Inner α}
    (hb : h.get p = some b) : listGet h.blocks p.ptr = some (some b) := by
  unfold Heap.get at hb
  cases hg : listGet h.blocks p.ptr with
  | none =>
    rw [hg] at hb
    exact Option.noConfusion hb
  | some o =>
    rw [hg] at hb
    have ho : o = some b := hb
    rw [ho]

theorem Rc.clone_eq {α : Type} {h : Heap α} {p : Rc} {b : Inner α}
    (hb : h.get p = some b) :
    Rc.clone h p =
      match b.count.increment with
      | none => none
      | some r => some (h.set p.ptr (some ⟨r.2, b.data⟩), ⟨p.ptr⟩) := by
  unfold Rc.clone
  rw [hb]

theorem Rc.drop_eq {α : Type} {h : Heap α} {p : Rc} {b : Inner α}
    (hb : h.get p = some b) :
    Rc.drop h p =
      if b.count.decrement.1 = 0 then h.set p.ptr none
      else h.set p.ptr (some ⟨b.count.decrement.2, b.data⟩) := by
  unfold Rc.drop
  rw [hb]

theorem Rc.unshare_eq {α : Type} {h : Heap α} {p : Rc} {b : Inner α}
    (hb : h.get p = some b) :
    Rc.unshare h p =
      ((b.count.make_single_threaded).1,
        h.set p.ptr (some ⟨(b.count.make_single_threaded).2, b.data⟩)) := by
  unfold Rc.unshare
  rw [hb]

theorem Arc.from_rc_eq {α : Type} {h : Heap α} {p : Rc} {b : Inner α}
    (hb : h.get p = some b) :
    Arc.from_rc h p =
      (h.set p.ptr (some ⟨b.count.make_multi_threaded, b.data⟩), ⟨p⟩) := by
  unfold Arc.from_rc
  rw [hb]

theorem dropN_succ {α : Type} (h : Heap α) (p : Rc) (k : Nat) :
    dropN h p (k + 1) = Rc.drop (dropN h p k) p := by
  induction k generalizing h with
  | zero => rfl
  | succ m ih => exact ih (Rc.drop h p)

theorem Rc.drop_live {α : Type} (h : Heap α) (p : Rc) (b : Inner α)
    (hb : h.get p = some b) (hge : 2 ≤ b.count.val)
    (hlt : b.count.val < USIZE_MOD) :
    ∃ c2 : Count, (Rc.drop h p).get p = some ⟨c2, b.data⟩
      ∧ c2.val = b.count.val - 1 ∧ c2.isSingle = b.count.isSingle
      ∧ (Rc.drop h p).blocks.length = h.blocks.length
      ∧ ∀ j, j ≠ p.ptr →
          listGet (Rc.drop h p).blocks j = listGet h.blocks j := by
  have hd := Count.decrement_val b.count.val (by omega) hlt b.count rfl
  have hne : ¬ b.count.decrement.1 = 0 := by omega
  have hp := Heap.get_some_lt h p b hb
  rw [Rc.drop_eq hb, if_neg hne]
  refine ⟨b.count.decrement.2, Heap.get_set_self h p _ hp, hd.2.1, hd.2.2,
    length_listSet _ _ _, ?_⟩
  intro j hj
  exact listGet_set_ne _ _ _ _ (Ne.symm hj)

theorem Rc.drop_last {α : Type} (h : Heap α) (p : Rc) (b : Inner α)
    (hb : h.get p = some b) (hone : b.count.val = 1) :
    (Rc.drop h p).get p = none
    ∧ (Rc.drop h p).blocks.length = h.blocks.length
    ∧ ∀ j, j ≠ p.ptr →
        listGet (Rc.drop h p).blocks j = listGet h.blocks j := by
  have hlt1 : b.count.val < USIZE_MOD := by
    rw [USIZE_MOD_eq]
    omega
  have hd := Count.decrement_val b.count.val (by omega) hlt1 b.count rfl
  have hz : b.count.decrement.1 = 0 := by omega
  have hp := Heap.get_some_lt h p b hb
  rw [Rc.drop_eq hb, if_pos hz]
  exact ⟨Heap.get_set_self h p none hp, length_listSet _ _ _,
    fun j hj => listGet_set_ne _ _ _ _ (Ne.symm hj)⟩

/-- C1 as frozen is refuted by the reachable counter state `Single 2` (a
fresh handle plus one clone, never promoted): `unshare` returns `true`
although two owning handles exist. -/
theorem unshare_true_not_sole_counterexample :
    Count.Reachable (Count.Single 2)
    ∧ (Count.Single 2).make_single_threaded.1 = true
    ∧ (Count.Single 2).val ≠ 1 :=
  ⟨Count.reachable_single (by omega) (by rw [MAX_REFCOUNT_eq]; omega),
    rfl, by decide⟩

/-- C1 (amended): for every reachable counter state, `unshare`
(`make_single_threaded`) returns `true` iff the counter is already in
`Single` mode or holds count exactly `1`; whenever it returns `false` it
leaves mode and count unchanged; and whenever it returns `true` on a
`Multi`-mode counter it rewrites the counter as `Single` holding that same
count. -/
theorem unshare_demotion_sound (s : Count) (hr : Count.Reachable s) :
    ((s.make_single_threaded).1 = true ↔ (s.isSingle = true ∨ s.val = 1))
    ∧ ((s.make_single_threaded).1 = false → (s.make_single_threaded).2 = s)
    ∧ (∀ c : Nat, s = Count.Multi c → (s.make_single_threaded).1 = true →
        (s.make_single_threaded).2 = Count.Single c) := by
  cases s with
  | Single c =>
    refine ⟨⟨fun _ => Or.inl rfl, fun _ => rfl⟩, fun hfalse => ?_, ?_⟩
    · exact Bool.noConfusion hfalse
    · intro c2 hc2
      exact Count.noConfusion hc2
  | Multi c =>
    by_cases hc : c = 1
    · rw [Count.make_single_threaded_multi_eq, if_pos hc]
      refine ⟨⟨fun _ => Or.inr hc, fun _ => rfl⟩, fun hfalse => ?_, ?_⟩
      · exact Bool.noConfusion hfalse
      · intro c2 hc2 _
        injection hc2 with he
        rw [he]
    · rw [Count.make_single_threaded_multi_eq, if_neg hc]
      refine ⟨⟨fun hfalse => Bool.noConfusion hfalse, ?_⟩,
        fun _ => rfl, ?_⟩
      · intro hor
        cases hor with
        | inl hs => exact Bool.noConfusion hs
        | inr hv => exact absurd hv hc
      · intro c2 hc2 htrue
        exact Bool.noConfusion htrue

theorem unshare_demotion_sound_witness :
    (Count.Multi 1).make_single_threaded.1 = true
    ∧ (Count.Multi 1).make_single_threaded.2 = Count.Single 1 := by
  have hth := unshare_demotion_sound (Count.Multi 1)
    (Count.Reachable.promote Count.Reachable.init)
  exact ⟨hth.1.mpr (Or.inr rfl), hth.2.2 1 rfl rfl⟩

/-- C2 as frozen is refuted at the (unreachable) counter value
`2 ^ 64 - 1`: the wrapping increment produces `0`, does not abort although
the mathematical successor exceeds the ceiling, and does not return old
count plus one. -/
theorem increment_ceiling_counterexample :
    (Count.Multi (2 ^ 64 - 1)).increment = some (0, Count.Multi 0)
    ∧ MAX_REFCOUNT < (2 ^ 64 - 1) + 1
    ∧ (2 ^ 64 - 1) + 1 ≠ 0 :=
  ⟨by decide, by decide, by decide⟩

/-- C2 (amended): for every counter in either mode whose successor count
does not wrap the 64-bit word (true in particular of every reachable
counter, whose count never exceeds `MAX_REFCOUNT`): when old count + 1
exceeds the soft ceiling the increment aborts, and otherwise it returns
old count + 1 with the mode unchanged and does not abort. -/
theorem increment_ceiling (c : Nat) (h : c + 1 < USIZE_MOD) :
    (MAX_REFCOUNT < c + 1 →
      (Count.Single c).increment = none ∧ (Count.Multi c).increment = none)
    ∧ (c + 1 ≤ MAX_REFCOUNT →
      (Count.Single c).increment = some (c + 1, Count.Single (c + 1))
      ∧ (Count.Multi c).increment = some (c + 1, Count.Multi (c + 1))) :=
  Count.increment_of_no_wrap h

theorem increment_ceiling_witness :
    MAX_REFCOUNT + 1 < USIZE_MOD
    ∧ ((MAX_REFCOUNT < MAX_REFCOUNT + 1 →
        (Count.Single MAX_REFCOUNT).increment = none
        ∧ (Count.Multi MAX_REFCOUNT).increment = none)
      ∧ (MAX_REFCOUNT + 1 ≤ MAX_REFCOUNT →
        (Count.Single MAX_REFCOUNT).increment
          = some (MAX_REFCOUNT + 1, Count.Single (MAX_REFCOUNT + 1))
        ∧ (Count.Multi MAX_REFCOUNT).increment
          = some (MAX_REFCOUNT + 1, Count.Multi (MAX_REFCOUNT + 1)))) :=
  ⟨by rw [MAX_REFCOUNT_eq, USIZE_MOD_eq]; omega,
    increment_ceiling MAX_REFCOUNT
      (by rw [MAX_REFCOUNT_eq, USIZE_MOD_eq]; omega)⟩

/-- C6: promotion (`Arc::from_rc` / `make_multi_threaded`) is idempotent and
count-preserving: on a `Multi` counter it changes nothing, and on a `Single`
counter holding `n` it produces `Multi` holding the same `n`; in all cases
the count is preserved and a second promotion changes nothing. -/
theorem promote_idempotent_count_preserving (n : Nat) :
    (Count.Multi n).make_multi_threaded = Count.Multi n
    ∧ (Count.Single n).make_multi_threaded = Count.Multi n
    ∧ ∀ s : Count, s.make_multi_threaded.val = s.val
      ∧ s.make_multi_threaded.make_multi_threaded = s.make_multi_threaded := by
  refine ⟨rfl, rfl, ?_⟩
  intro s
  cases s with
  | Single c => exact ⟨rfl, rfl⟩
  | Multi c => exact ⟨rfl, rfl⟩

/-- C9: at the failing input (a `Multi`-mode counter whose loaded count is
`1`), the demotion check-and-flip performed by `Inner::make_single_threaded`
is a `SeqCst` atomic load followed by a separate unsynchronized write of the
counter storage — not the single compare-and-set-style atomic step the spec
requires. -/
theorem demotion_not_single_cas :
    make_single_threaded_events (Count.Multi 1)
      = [MemEvent.plainRead, MemEvent.atomicLoad MemOrder.seqcst,
          MemEvent.plainWrite]
    ∧ isSingleCASCheckAndFlip (make_single_threaded_events (Count.Multi 1))
        = false
    ∧ (Count.Multi 1).make_single_threaded = (true, Count.Single 1) :=
  ⟨rfl, rfl, rfl⟩

/-- C10: under the implicit precondition that at least one handle is
outstanding (count at least `1`, the count being a `usize` value), decrement
returns count - 1 in either mode with the mode unchanged, and the unchecked
subtraction does not underflow: the result is strictly below the old
count. -/
theorem decrement_no_underflow (n : Nat) (h1 : 1 ≤ n) (h2 : n < USIZE_MOD) :
    (Count.Single n).decrement = (n - 1, Count.Single (n - 1))
    ∧ (Count.Multi n).decrement = (n - 1, Count.Multi (n - 1))
    ∧ n - 1 < n := by
  refine ⟨?_, ?_, by omega⟩
  · rw [Count.decrement_single_eq, usize_sub_one h1 h2]
  · rw [Count.decrement_multi_eq, usize_sub_one h1 h2]

theorem decrement_no_underflow_witness :
    (Count.Single 5).decrement = (4, Count.Single 4)
    ∧ (Count.Multi 5).decrement = (4, Count.Multi 4)
    ∧ 5 - 1 < 5 :=
  decrement_no_underflow 5 (by omega) (by rw [USIZE_MOD_eq]; omega)

/-- C3: `Rc::new v` allocates a block whose counter is in `Single` mode with
count exactly `1` and whose stored data is `v`, and dereferencing the fresh
handle yields `v`. -/
theorem rc_new_single_one (α : Type) (h : Heap α) (v : α) :
    (Rc.new h v).1.get (Rc.new h v).2 = some ⟨Count.Single 1, v⟩
    ∧ Rc.deref (Rc.new h v).1 (Rc.new h v).2 = some v := by
  have hg : (Rc.new h v).1.get (Rc.new h v).2 = some ⟨Count.Single 1, v⟩ := by
    show (match listGet (h.blocks ++ [some (Inner.new v)]) h.blocks.length with
          | some b => b
          | none => none) = some ⟨Count.Single 1, v⟩
    rw [listGet_append_length]
    rfl
  refine ⟨hg, ?_⟩
  unfold Rc.deref
  rw [hg]

/-- C4: cloning a handle whose block holds count `n` below the soft ceiling
succeeds, returns a handle to the same block, raises the count to exactly
`n + 1`, leaves the mode and the stored value unchanged, allocates no new
block, and touches no other block. -/
theorem clone_same_block_increments (α : Type) (h : Heap α) (p : Rc)
    (b : Inner α) (hb : h.get p = some b)
    (hn : b.count.val < MAX_REFCOUNT) :
    ∃ (h2 : Heap α) (q : Rc) (c2 : Count),
      Rc.clone h p = some (h2, q)
      ∧ q.ptr = p.ptr
      ∧ h2.get p = some ⟨c2, b.data⟩
      ∧ c2.val = b.count.val + 1
      ∧ c2.isSingle = b.count.isSingle
      ∧ h2.blocks.length = h.blocks.length
      ∧ ∀ j, j ≠ p.ptr → listGet h2.blocks j = listGet h.blocks j := by
  obtain ⟨t, hinc, htv, hts⟩ := Count.increment_val_lt hn
  have hlt := Heap.get_some_lt h p b hb
  refine ⟨h.set p.ptr (some ⟨t, b.data⟩), ⟨p.ptr⟩, t, ?_, rfl,
    Heap.get_set_self h p _ hlt, htv, hts, length_listSet _ _ _, ?_⟩
  · rw [Rc.clone_eq hb, hinc]
  · intro j hj
    exact listGet_set_ne _ _ _ _ (Ne.symm hj)

theorem clone_same_block_increments_witness :
    Heap.get ⟨[some ⟨Count.Single 1, 42⟩]⟩ ⟨0⟩
      = some ⟨Count.Single 1, (42 : Nat)⟩
    ∧ (⟨Count.Single 1, (42 : Nat)⟩ : Inner Nat).count.val < MAX_REFCOUNT
    ∧ ∃ (h2 : Heap Nat) (q : Rc) (c2 : Count),
        Rc.clone ⟨[some ⟨Count.Single 1, 42⟩]⟩ ⟨0⟩ = some (h2, q)
        ∧ q.ptr = Rc.ptr ⟨0⟩
        ∧ h2.get ⟨0⟩ = some ⟨c2, 42⟩
        ∧ c2.val = (⟨Count.Single 1, 42⟩ : Inner Nat).count.val + 1
        ∧ c2.isSingle = (⟨Count.Single 1, 42⟩ : Inner Nat).count.isSingle
        ∧ h2.blocks.length
            = (⟨[some ⟨Count.Single 1, 42⟩]⟩ : Heap Nat).blocks.length
        ∧ ∀ j, j ≠ Rc.ptr ⟨0⟩ →
            listGet h2.blocks j
              = listGet (⟨[some ⟨Count.Single 1, 42⟩]⟩ : Heap Nat).blocks j :=
  ⟨rfl, by decide,
    clone_same_block_increments Nat ⟨[some ⟨Count.Single 1, 42⟩]⟩ ⟨0⟩
      ⟨Count.Single 1, 42⟩ rfl (by decide)⟩

theorem dropN_invariant (α : Type) (p : Rc) :
    ∀ (k n : Nat) (h : Heap α) (b : Inner α), h.get p = some b →
      b.count.val = n → k + 1 ≤ n → n ≤ MAX_REFCOUNT →
      ∃ c2 : Count, (dropN h p k).get p = some ⟨c2, b.data⟩
        ∧ c2.val = n - k
        ∧ c2.isSingle = b.count.isSingle
        ∧ (dropN h p k).blocks.length = h.blocks.length
        ∧ ∀ j, j ≠ p.ptr →
            listGet (dropN h p k).blocks j = listGet h.blocks j := by
  intro k
  induction k with
  | zero =>
    intro n h b hb hval hk hn
    exact ⟨b.count, hb, by omega, rfl, rfl, fun j hj => rfl⟩
  | succ m ih =>
    intro n h b hb hval hk hn
    have hM := USIZE_MOD_eq
    have hR := MAX_REFCOUNT_eq
    obtain ⟨c1, hg1, hv1, hs1, hl1, hf1⟩ :=
      Rc.drop_live h p b hb (by omega) (by omega)
    obtain ⟨c2, hg2, hv2, hs2, hl2, hf2⟩ :=
      ih (n - 1) (Rc.drop h p) ⟨c1, b.data⟩ hg1 (by rw [hv1]; omega)
        (by omega) (by omega)
    refine ⟨c2, hg2, by omega, by rw [hs2]; exact hs1, ?_, ?_⟩
    · show (dropN (Rc.drop h p) p m).blocks.length = h.blocks.length
      rw [hl2, hl1]
    · intro j hj
      show listGet (dropN (Rc.drop h p) p m).blocks j = listGet h.blocks j
      rw [hf2 j hj, hf1 j hj]

/-- C5: from a block with count `n` (between `1` and the ceiling), each of
the first `n - 1` drops leaves the block allocated with the count lowered by
exactly one (mode and stored value unchanged); the `n`-th drop frees the
block; no slot for another block is touched and no block is allocated; and
no other operation (`Rc::new`, `Rc::unshare`, `Arc::from_rc`, `Rc::clone`)
ever frees an allocated block. -/
theorem drop_frees_after_n (α : Type) (h : Heap α) (p : Rc) (b : Inner α)
    (n : Nat) (hb : h.get p = some b) (hval : b.count.val = n)
    (h1 : 1 ≤ n) (h2 : n ≤ MAX_REFCOUNT) :
    (∀ k, k < n → ∃ c2 : Count,
      (dropN h p k).get p = some ⟨c2, b.data⟩
      ∧ c2.val = n - k ∧ c2.isSingle = b.count.isSingle)
    ∧ (dropN h p n).get p = none
    ∧ (dropN h p n).blocks.length = h.blocks.length
    ∧ (∀ j, j ≠ p.ptr →
        listGet (dropN h p n).blocks j = listGet h.blocks j)
    ∧ (∀ (g : Heap α) (q : Rc) (c : Inner α) (w : α), g.get q = some c →
        (Rc.new g w).1.get q = some c
        ∧ (Rc.unshare g q).2.get q ≠ none
        ∧ (Arc.from_rc g q).1.get q ≠ none
        ∧ ∀ (g2 : Heap α) (r : Rc),
            Rc.clone g q = some (g2, r) → g2.get q ≠ none) := by
  have hstep : ∀ k, k < n → ∃ c2 : Count,
      (dropN h p k).get p = some ⟨c2, b.data⟩
      ∧ c2.val = n - k ∧ c2.isSingle = b.count.isSingle
      ∧ (dropN h p k).blocks.length = h.blocks.length
      ∧ ∀ j, j ≠ p.ptr →
          listGet (dropN h p k).blocks j = listGet h.blocks j := by
    intro k hk
    exact dropN_invariant α p k n h b hb hval (by omega) h2
  refine ⟨fun k hk => ?_, ?_, ?_, ?_, ?_⟩
  · obtain ⟨c2, hg, hv, hs, _, _⟩ := hstep k hk
    exact ⟨c2, hg, hv, hs⟩
  · obtain ⟨c2, hg, hv, hs, hl, hf⟩ := hstep (n - 1) (by omega)
    have hn1 : n = (n - 1) + 1 := by omega
    rw [hn1, dropN_succ]
    exact (Rc.drop_last _ p _ hg (by rw [hv]; omega)).1
  · obtain ⟨c2, hg, hv, hs, hl, hf⟩ := hstep (n - 1) (by omega)
    have hn1 : n = (n - 1) + 1 := by omega
    rw [hn1, dropN_succ]
    rw [(Rc.drop_last _ p _ hg (by rw [hv]; omega)).2.1, hl]
  · obtain ⟨c2, hg, hv, hs, hl, hf⟩ := hstep (n - 1) (by omega)
    have hn1 : n = (n - 1) + 1 := by omega
    intro j hj
    rw [hn1, dropN_succ]
    rw [(Rc.drop_last _ p _ hg (by rw [hv]; omega)).2.2 j hj, hf j hj]
  · intro g q c w hq
    have hqlt := Heap.get_some_lt g q c hq
    refine ⟨?_, ?_, ?_, ?_⟩
    · show (match listGet (g.blocks ++ [some (Inner.new w)]) q.ptr with
            | some o => o
            | none => none) = some c
      rw [listGet_append_lt _ _ _ hqlt, Heap.get_eq_some hq]
    · rw [Rc.unshare_eq hq]
      show (g.set q.ptr
          (some ⟨(c.count.make_single_threaded).2, c.data⟩)).get q ≠ none
      rw [Heap.get_set_self g q _ hqlt]
      exact fun hcon => Option.noConfusion hcon
    · rw [Arc.from_rc_eq hq]
      show (g.set q.ptr
          (some ⟨c.count.make_multi_threaded, c.data⟩)).get q ≠ none
      rw [Heap.get_set_self g q _ hqlt]
      exact fun hcon => Option.noConfusion hcon
    · intro g2 r hcl
      rw [Rc.clone_eq hq] at hcl
      cases hci : c.count.increment with
      | none =>
        rw [hci] at hcl
        exact Option.noConfusion hcl
      | some u =>
        rw [hci] at hcl
        injection hcl with hpair
        injection hpair with hg2 hr
        rw [← hg2, Heap.get_set_self g q _ hqlt]
        exact fun hcon => Option.noConfusion hcon

theorem drop_frees_after_n_witness :
    (dropN (⟨[some ⟨Count.Single 2, 7⟩]⟩ : Heap Nat) ⟨0⟩ 2).get ⟨0⟩ = none
    ∧ (dropN (⟨[some ⟨Count.Single 2, 7⟩]⟩ : Heap Nat) ⟨0⟩ 2).blocks.length
        = 1 := by
  have hth := drop_frees_after_n Nat ⟨[some ⟨Count.Single 2, 7⟩]⟩ ⟨0⟩
    ⟨Count.Single 2, 7⟩ 2 rfl rfl (by omega) (by rw [MAX_REFCOUNT_eq]; omega)
  exact ⟨hth.2.1, hth.2.2.1⟩

/-- C7: the round trip `Rc::from_arc(Arc::from_rc(h))` yields the very same
pointer, the block keeps its count and data with the mode left at `Multi`,
no block is allocated or touched elsewhere, and `Rc::from_arc` itself is the
pure unwrap — it touches neither the heap (so neither count nor mode) nor
the pointer. -/
theorem from_arc_from_rc_round_trip (α : Type) (h : Heap α) (p : Rc)
    (b : Inner α) (hb : h.get p = some b) :
    Rc.from_arc (Arc.from_rc h p).2 = p
    ∧ (Arc.from_rc h p).1.get p = some ⟨Count.Multi b.count.val, b.data⟩
    ∧ (Arc.from_rc h p).1.blocks.length = h.blocks.length
    ∧ (∀ j, j ≠ p.ptr →
        listGet (Arc.from_rc h p).1.blocks j = listGet h.blocks j)
    ∧ (∀ a : Arc, Rc.from_arc a = a.inner) := by
  have hlt := Heap.get_some_lt h p b hb
  rw [Arc.from_rc_eq hb]
  refine ⟨rfl, ?_, length_listSet _ _ _, ?_, fun a => rfl⟩
  · rw [Count.make_multi_threaded_val]
    exact Heap.get_set_self h p _ hlt
  · intro j hj
    exact listGet_set_ne _ _ _ _ (Ne.symm hj)

theorem from_arc_from_rc_round_trip_witness :
    Rc.from_arc (Arc.from_rc (⟨[some ⟨Count.Single 3, 9⟩]⟩ : Heap Nat)
        ⟨0⟩).2 = ⟨0⟩
    ∧ (Arc.from_rc (⟨[some ⟨Count.Single 3, 9⟩]⟩ : Heap Nat) ⟨0⟩).1.get ⟨0⟩
        = some ⟨Count.Multi 3, 9⟩ := by
  have hth := from_arc_from_rc_round_trip Nat ⟨[some ⟨Count.Single 3, 9⟩]⟩
    ⟨0⟩ ⟨Count.Single 3, 9⟩ rfl
  exact ⟨hth.1, hth.2.1⟩

/-- C8 as frozen is refuted: cloning a handle whose block already holds the
ceiling count `MAX_REFCOUNT` — a reachable counter state — aborts the
process instead of returning normally. -/
theorem clone_aborts_counterexample :
    Count.Reachable (Count.Single MAX_REFCOUNT)
    ∧ Rc.clone (⟨[some ⟨Count.Single MAX_REFCOUNT, 0⟩]⟩ : Heap Nat) ⟨0⟩
        = none := by
  refine ⟨Count.reachable_single (by rw [MAX_REFCOUNT_eq]; omega)
    (le_refl MAX_REFCOUNT), by decide⟩

/-- C8 (amended): construct, drop, dereference and promote are total — in
the embedding they are plain functions with no failure outcome, and with a
valid handle they return the expected normal result — while clone is total
except for the overflow guard: with a valid handle whose block count is at
most the ceiling, clone aborts exactly when the count already equals
`MAX_REFCOUNT`. -/
theorem operations_total_except_clone_overflow (α : Type) (h : Heap α)
    (p : Rc) (b : Inner α) (hb : h.get p = some b)
    (hval : b.count.val ≤ MAX_REFCOUNT) :
    Rc.deref h p = some b.data
    ∧ (Arc.from_rc h p).1.get p ≠ none
    ∧ (∀ v : α, (Rc.new h v).1.get (Rc.new h v).2 ≠ none)
    ∧ (Rc.clone h p = none ↔ b.count.val = MAX_REFCOUNT) := by
  have hlt := Heap.get_some_lt h p b hb
  refine ⟨?_, ?_, ?_, ?_, ?_⟩
  · unfold Rc.deref
    rw [hb]
  · rw [Arc.from_rc_eq hb]
    show (h.set p.ptr
        (some ⟨b.count.make_multi_threaded, b.data⟩)).get p ≠ none
    rw [Heap.get_set_self h p _ hlt]
    exact fun hcon => Option.noConfusion hcon
  · intro v
    show (match listGet (h.blocks ++ [some (Inner.new v)]) h.blocks.length
          with
          | some o => o
          | none => none) ≠ none
    rw [listGet_append_length]
    exact fun hcon => Option.noConfusion hcon
  · intro hcl
    by_contra hne
    have hvlt : b.count.val < MAX_REFCOUNT := by omega
    obtain ⟨t, hinc, _, _⟩ := Count.increment_val_lt hvlt
    rw [Rc.clone_eq hb, hinc] at hcl
    exact Option.noConfusion hcl
  · intro heq
    rw [Rc.clone_eq hb, Count.increment_val_max heq]

theorem operations_total_except_clone_overflow_witness :
    Rc.deref (⟨[some ⟨Count.Single 1, 3⟩]⟩ : Heap Nat) ⟨0⟩ = some 3
    ∧ ¬ Rc.clone (⟨[some ⟨Count.Single 1, 3⟩]⟩ : Heap Nat) ⟨0⟩ = none := by
  have hth := operations_total_except_clone_overflow Nat
    ⟨[some ⟨Count.Single 1, 3⟩]⟩ ⟨0⟩ ⟨Count.Single 1, 3⟩ rfl (by decide)
  refine ⟨hth.1, fun hcl => ?_⟩
  have hone : (1 : Nat) = MAX_REFCOUNT := hth.2.2.2.mp hcl
  rw [MAX_REFCOUNT_eq] at hone
  omega

end Darc
